import Mathlib

/-!
Verification of the two Sudoku solving engines of this repository:
a backtracking solver (`src/backtracking_solver/main.rs`) and a
constraint-propagation solver (`src/naive_solver/main.rs`).

The Rust code is shallowly embedded: boards become `List Nat`,
`HashSet<u32>` domains become `Finset Nat`, the iterative `solve`
loops become fuel-indexed recursions whose `panic`/fuel-exhaustion
outcomes are explicit constructors.
-/

namespace Backtracking

/-- `DIMS = 9`. -/
def DIMS : Nat := 9

/-- `AREA = DIMS * DIMS = 81`. -/
def AREA : Nat := DIMS * DIMS

/-- The row peer table of the Rust code: `rows[x][y] = x * 9 + y`,
so row `r` is the list of flat indices of the cells of row `r`. -/
def rowIdxs (r : Nat) : List Nat := (List.range 9).map (fun y => r * 9 + y)

/-- The column peer table: `cols[y][x] = x * 9 + y`, so column `c` is the
list of flat indices of the cells of column `c`. -/
def colIdxs (c : Nat) : List Nat := (List.range 9).map (fun x => x * 9 + c)

/-- The block a cell belongs to, as computed by the Rust code:
`block = (row / 3) * 3 + (col / 3)` with `row = idx / 9`, `col = idx % 9`. -/
def blockOf (idx : Nat) : Nat := (idx / 9 / 3) * 3 + (idx % 9 / 3)

/-- The block peer table: `blocks[block][idx_in_block] = idx` where
`block = (x/3)*3 + y/3` and `idx_in_block = (x%3)*3 + (y%3)` for `idx = x*9+y`;
inverting, entry `j` of block `b` is row `(b/3)*3 + j/3`, column `(b%3)*3 + j%3`. -/
def blockIdxs (b : Nat) : List Nat :=
  (List.range 9).map (fun j => ((b / 3) * 3 + j / 3) * 9 + ((b % 3) * 3 + j % 3))

/-- `Sudoku::get_cell`: read the board at flat index `row * 9 + col`. -/
def get_cell (board : List Nat) (row col : Nat) : Nat :=
  board.getD (row * 9 + col) 0

/-- `Sudoku::set_cell`: write the board at flat index `row * 9 + col`. -/
def set_cell (board : List Nat) (row col value : Nat) : List Nat :=
  board.set (row * 9 + col) value

/-- `Sudoku::is_valid_cell`: `value` conflicts with no cell, other than
`(row, col)` itself, of the row, the column, or the block of `(row, col)`. -/
def is_valid_cell (board : List Nat) (row col value : Nat) : Bool :=
  let idx := row * 9 + col
  (rowIdxs row).all (fun r => r == idx || value != board.getD r 0) &&
  (colIdxs col).all (fun c => c == idx || value != board.getD c 0) &&
  (blockIdxs ((row / 3) * 3 + col / 3)).all (fun b => b == idx || value != board.getD b 0)

/-- `Sudoku::find_solution`: the first `i` in `cell+1 ..= 9` that is valid at
`(row, col)`, where `cell` is the current value of the cell. -/
def find_solution (board : List Nat) (row col : Nat) : Option Nat :=
  let cell := get_cell board row col + 1
  (List.range' cell (10 - cell)).find? (fun i => is_valid_cell board row col i)

/-- Outcome of `Sudoku::solve`: normal termination with the final board,
a panic (the Rust code decrements the `usize` cursor at `0`, an arithmetic
underflow), or fuel exhaustion of the embedding. -/
inductive SolveResult where
  | ok (board : List Nat)
  | panic
  | fuelOut
deriving DecidableEq, Repr

/-- `Sudoku::solve`, fuel-indexed.  While `backtrack_idx < unsolved.length`,
look at the cell `unsolved[backtrack_idx]` (its coordinates are
`coords[idx] = (idx / 9, idx % 9)`); if `find_solution` yields a candidate,
write it and advance, otherwise clear the cell and retreat — retreating at
cursor `0` is the `usize` underflow, embedded as `panic`. -/
def solveLoop (unsolved : List Nat) : Nat → List Nat → Nat → SolveResult
  | fuel, board, idx =>
    if idx < unsolved.length then
      match fuel with
      | 0 => .fuelOut
      | fuel + 1 =>
        let cellIdx := unsolved.getD idx 0
        let row := cellIdx / 9
        let col := cellIdx % 9
        match find_solution board row col with
        | some s => solveLoop unsolved fuel (set_cell board row col s) (idx + 1)
        | none =>
          if idx = 0 then .panic
          else solveLoop unsolved fuel (set_cell board row col 0) (idx - 1)
    else .ok board

/-- The solver state built by `Sudoku::from_iter`: the board and the list of
unsolved cell indices (the peer tables are the fixed geometric tables above). -/
structure Sudoku where
  board : List Nat
  unsolved_cells : List Nat
deriving DecidableEq, Repr

/-- The board built by `Sudoku::from_iter`: start from all zeros and write
each clue `(i, n)` as `board[i] = n`. -/
def fromIterBoard (clues : List (Nat × Nat)) : List Nat :=
  clues.foldl (fun b p => b.set p.1 p.2) (List.replicate AREA 0)

/-- The unsolved-cell list built by `Sudoku::from_iter`: all indices `0..81`
that appear in no clue, in ascending order. -/
def fromIterUnsolved (clues : List (Nat × Nat)) : List Nat :=
  (List.range AREA).filter (fun x => ¬ clues.any (fun p => p.1 = x))

/-- `Sudoku::from_iter`.  The Rust code writes `board[i] = n` for each clue,
which panics when `i ≥ 81`; the panic is embedded as `none`. -/
def from_iter (clues : List (Nat × Nat)) : Option Sudoku :=
  if clues.all (fun p => p.1 < AREA) then
    some ⟨fromIterBoard clues, fromIterUnsolved clues⟩
  else none

/-- Two flat cell indices see each other: same row, same column, or same
3×3 block.  This is the semantic peer relation the peer tables encode. -/
def isPeer (c c' : Nat) : Prop :=
  c / 9 = c' / 9 ∨ c % 9 = c' % 9 ∨ blockOf c = blockOf c'

instance (c c' : Nat) : Decidable (isPeer c c') := by
  unfold isPeer; infer_instance

/-- Cell `c` holds a digit in `[1, 9]` that conflicts with no other cell it
can see. -/
def PlacedOK (board : List Nat) (c : Nat) : Prop :=
  1 ≤ board.getD c 0 ∧ board.getD c 0 ≤ 9 ∧
    ∀ i, i < 81 → i ≠ c → isPeer c i → board.getD i 0 ≠ board.getD c 0

instance (board : List Nat) (c : Nat) : Decidable (PlacedOK board c) := by
  unfold PlacedOK; infer_instance

/-- A completely solved grid: every cell holds a digit in `[1, 9]` and every
row, column and 3×3 block contains each digit `1`–`9` exactly once. -/
def SolvedGrid (board : List Nat) : Prop :=
  (∀ c, c < 81 → 1 ≤ board.getD c 0 ∧ board.getD c 0 ≤ 9) ∧
  (∀ r, r < 9 → ∀ d, d < 10 → 1 ≤ d →
    ((rowIdxs r).map (fun i => board.getD i 0)).count d = 1) ∧
  (∀ c, c < 9 → ∀ d, d < 10 → 1 ≤ d →
    ((colIdxs c).map (fun i => board.getD i 0)).count d = 1) ∧
  (∀ b, b < 9 → ∀ d, d < 10 → 1 ≤ d →
    ((blockIdxs b).map (fun i => board.getD i 0)).count d = 1)

instance (board : List Nat) : Decidable (SolvedGrid board) := by
  unfold SolvedGrid; infer_instance

/-- A complete valid Sudoku grid, used as concrete test data. -/
def demoSolvedBoard : List Nat :=
  [1,2,3,4,5,6,7,8,9,
   4,5,6,7,8,9,1,2,3,
   7,8,9,1,2,3,4,5,6,
   2,3,4,5,6,7,8,9,1,
   5,6,7,8,9,1,2,3,4,
   8,9,1,2,3,4,5,6,7,
   3,4,5,6,7,8,9,1,2,
   6,7,8,9,1,2,3,4,5,
   9,1,2,3,4,5,6,7,8]

/-- The clue list giving every cell of `demoSolvedBoard` except the last. -/
def demoClues : List (Nat × Nat) :=
  (List.range 80).map (fun i => (i, demoSolvedBoard.getD i 0))

/-- An unsolvable clue set: row 0 already contains 1–8 in cells 1–8 and the
cell below cell 0 (index 9, column 0) holds 9, so no digit fits cell 0. -/
def c1Clues : List (Nat × Nat) :=
  [(1,1),(2,2),(3,3),(4,4),(5,5),(6,6),(7,7),(8,8),(9,9)]

/-- A malformed clue list: two `5` clues in the same row. -/
def c9Clues : List (Nat × Nat) := [(0, 5), (1, 5)]

end Backtracking

namespace Naive

/-- `Cell::new`: possibilities are `{1..9}` when the given digit is `0`,
otherwise the singleton of the digit. -/
def Cell.new (v : Nat) : Finset Nat :=
  if v = 0 then ({1,2,3,4,5,6,7,8,9} : Finset Nat) else {v}

/-- `Cell::is_solved`: the possibility set has exactly one element. -/
def Cell.is_solved (s : Finset Nat) : Bool := s.card == 1

/-- `Cell::resolve`: the sole possibility when the set is a singleton,
otherwise `0`. -/
def Cell.resolve (s : Finset Nat) : Nat :=
  if s.card = 1 then (s.sort (· ≤ ·)).headD 0 else 0

/-- `Cell::remove_possibility`: delete `v` from the possibility set. -/
def Cell.remove_possibility (s : Finset Nat) (v : Nat) : Finset Nat := s.erase v

/-- The propagation solver state: the 9×9 grid of possibility sets and the
FIFO queue of solved cells `(x, y, value)`. -/
structure Board where
  cells : List (List (Finset Nat))
  solved_cells : List (Nat × Nat × Nat)
deriving DecidableEq

/-- Read `cells[x][y]` (the empty set as out-of-range default). -/
def getCell (cells : List (List (Finset Nat))) (x y : Nat) : Finset Nat :=
  (cells.getD x []).getD y ∅

/-- Write `cells[x][y]`. -/
def setCell (cells : List (List (Finset Nat))) (x y : Nat) (c : Finset Nat) :
    List (List (Finset Nat)) :=
  cells.set x ((cells.getD x []).set y c)

/-- `Board::reduce_cell_possibilities`: if the cell at `(x, y)` is not yet
solved, remove `v` from its possibilities; if that makes it solved, enqueue
`(x, y, resolve)` at the back of the queue. -/
def reduce_cell_possibilities (b : Board) (x y v : Nat) : Board :=
  let cell := getCell b.cells x y
  if Cell.is_solved cell then b
  else
    let cell2 := Cell.remove_possibility cell v
    if Cell.is_solved cell2 then
      { cells := setCell b.cells x y cell2,
        solved_cells := b.solved_cells ++ [(x, y, Cell.resolve cell2)] }
    else
      { cells := setCell b.cells x y cell2, solved_cells := b.solved_cells }

/-- Sequential application of `reduce_cell_possibilities` to a list of
coordinates. -/
def reduceMany (b : Board) (ps : List (Nat × Nat)) (v : Nat) : Board :=
  ps.foldl (fun acc p => reduce_cell_possibilities acc p.1 p.2 v) b

/-- `Board::reduce_possibilities`: reduce the column of the solved cell
(`x` ranges, `y` fixed), then its row, then its 3×3 block. -/
def reduce_possibilities (b : Board) (sx sy sv : Nat) : Board :=
  let b1 := (List.range 9).foldl (fun acc x => reduce_cell_possibilities acc x sy sv) b
  let b2 := (List.range 9).foldl (fun acc y => reduce_cell_possibilities acc sx y sv) b1
  (List.range 3).foldl (fun acc x =>
    (List.range 3).foldl
      (fun acc2 y => reduce_cell_possibilities acc2 (x + sx / 3 * 3) (y + sy / 3 * 3) sv)
      acc) b2

/-- The 27 coordinates `reduce_possibilities` visits, in visiting order. -/
def touchList (sx sy : Nat) : List (Nat × Nat) :=
  (List.range 9).map (fun x => (x, sy)) ++
    (List.range 9).map (fun y => (sx, y)) ++
    ((List.range 3).map (fun x =>
      (List.range 3).map (fun y => (x + sx / 3 * 3, y + sy / 3 * 3)))).flatten

/-- `Board::solve`, fuel-indexed: dequeue the front solved cell and
propagate, until the queue is empty; `none` means the fuel ran out. -/
def solve (fuel : Nat) (b : Board) : Option Board :=
  match b.solved_cells with
  | [] => some b
  | s :: rest =>
    match fuel with
    | 0 => none
    | fuel' + 1 => solve fuel' (reduce_possibilities ⟨b.cells, rest⟩ s.1 s.2.1 s.2.2)

/-- The solved-cell records of one input row, `y` counting from the given
offset: `(x, y, v)` for each nonzero `v`, in order. -/
def rowSolved (x : Nat) : Nat → List Nat → List (Nat × Nat × Nat)
  | _, [] => []
  | y, v :: rest => (if v = 0 then [] else [(x, y, v)]) ++ rowSolved x (y + 1) rest

/-- The initial queue of `Board::new`: the nonzero cells in row-major
order. -/
def newSolved : Nat → List (List Nat) → List (Nat × Nat × Nat)
  | _, [] => []
  | x, row :: rest => rowSolved x 0 row ++ newSolved (x + 1) rest

/-- `Board::new`: one `Cell` per input digit, and every nonzero cell
enqueued immediately, in row-major order. -/
def Board.new (rows : List (List Nat)) : Board :=
  { cells := rows.map (fun row => row.map Cell.new),
    solved_cells := newSolved 0 rows }

/-- Count of grid cells whose possibility set does not have exactly one
element. -/
def unsolvedCount (cells : List (List (Finset Nat))) : Nat :=
  (cells.map (fun row => (row.filter (fun c => c.card != 1)).length)).sum

/-- Termination measure: queue length plus number of not-yet-solved cells.
Each loop iteration of `solve` decreases it by exactly one. -/
def potential (b : Board) : Nat := b.solved_cells.length + unsolvedCount b.cells

/-- The possibility set of a cell after one visit by
`reduce_cell_possibilities` with value `v`: unchanged when solved, otherwise
`v` removed. -/
def targetCell (b : Board) (x y v : Nat) : Finset Nat :=
  if (getCell b.cells x y).card = 1 then getCell b.cells x y
  else (getCell b.cells x y).erase v

/-- The semantic peer relation of the propagation engine: `(x, y)` is in the
grid and shares the row, column or 3×3 block of `(sx, sy)`. -/
def peerN (sx sy x y : Nat) : Prop :=
  x < 9 ∧ y < 9 ∧ (x = sx ∨ y = sy ∨ (x / 3 = sx / 3 ∧ y / 3 = sy / 3))

instance (sx sy x y : Nat) : Decidable (peerN sx sy x y) := by
  unfold peerN; infer_instance

/-- The all-empty 9×9 configuration. -/
def zeroConfig : List (List Nat) := List.replicate 9 (List.replicate 9 0)

/-- A one-clue 9×9 configuration: a `5` at `(0, 0)`. -/
def oneClueConfig : List (List Nat) :=
  (5 :: List.replicate 8 0) :: List.replicate 8 (List.replicate 9 0)

/-- A malformed 9×9 configuration: two `5` clues in the same row. -/
def dupConfig : List (List Nat) :=
  (5 :: 5 :: List.replicate 7 0) :: List.replicate 8 (List.replicate 9 0)

/-- A malformed 9×9 configuration: the out-of-range digit `17`. -/
def outOfRangeConfig : List (List Nat) :=
  (17 :: List.replicate 8 0) :: List.replicate 8 (List.replicate 9 0)

end Naive

namespace Backtracking

theorem getD_set_self (l : List Nat) (i a : Nat) (h : i < l.length) :
    (l.set i a).getD i 0 = a := by
  simp [List.getD_eq_getElem?_getD, List.getElem?_set_self', h]

theorem getD_set_ne (l : List Nat) (i j a : Nat) (h : i ≠ j) :
    (l.set i a).getD j 0 = l.getD j 0 := by
  simp [List.getD_eq_getElem?_getD, List.getElem?_set_ne h]

theorem isPeer_symm {c c' : Nat} (h : isPeer c c') : isPeer c' c := by
  unfold isPeer at *
  rcases h with h | h | h
  · exact Or.inl h.symm
  · exact Or.inr (Or.inl h.symm)
  · exact Or.inr (Or.inr h.symm)

theorem mem_rowIdxs {r i : Nat} (hr : r < 9) :
    i ∈ rowIdxs r ↔ i < 81 ∧ i / 9 = r := by
  simp only [rowIdxs, List.mem_map, List.mem_range]
  constructor
  · rintro ⟨y, hy, rfl⟩
    omega
  · rintro ⟨h1, h2⟩
    exact ⟨i % 9, by omega, by omega⟩

theorem mem_colIdxs {c i : Nat} (hc : c < 9) :
    i ∈ colIdxs c ↔ i < 81 ∧ i % 9 = c := by
  simp only [colIdxs, List.mem_map, List.mem_range]
  constructor
  · rintro ⟨x, hx, rfl⟩
    omega
  · rintro ⟨h1, h2⟩
    exact ⟨i / 9, by omega, by omega⟩

theorem mem_blockIdxs {b i : Nat} (hb : b < 9) :
    i ∈ blockIdxs b ↔ i < 81 ∧ blockOf i = b := by
  simp only [blockIdxs, blockOf, List.mem_map, List.mem_range]
  constructor
  · rintro ⟨j, hj, rfl⟩
    omega
  · rintro ⟨h1, h2⟩
    exact ⟨(i / 9 % 3) * 3 + i % 9 % 3, by omega, by omega⟩

/-- Semantic reading of `is_valid_cell`: for an in-range cell, validity of
`value` means no other visible cell already holds `value`. -/
theorem is_valid_cell_iff (board : List Nat) (row col value : Nat)
    (hr : row < 9) (hc : col < 9) :
    is_valid_cell board row col value = true ↔
      ∀ i, i < 81 → i ≠ row * 9 + col → isPeer (row * 9 + col) i →
        board.getD i 0 ≠ value := by
  have hdiv : (row * 9 + col) / 9 = row := by omega
  have hmod : (row * 9 + col) % 9 = col := by omega
  have hblk : (row / 3) * 3 + col / 3 < 9 := by omega
  have hblkOf : blockOf (row * 9 + col) = (row / 3) * 3 + col / 3 := by
    unfold blockOf; omega
  unfold is_valid_cell
  simp only [Bool.and_eq_true, List.all_eq_true, Bool.or_eq_true, beq_iff_eq,
    bne_iff_ne, ne_eq]
  constructor
  · rintro ⟨⟨hrow, hcol⟩, hblock⟩ i hi hne hpeer
    rcases hpeer with hp | hp | hp
    · have hmem : i ∈ rowIdxs row := (mem_rowIdxs hr).mpr ⟨hi, by omega⟩
      have := hrow i hmem
      rcases this with h | h
      · exact absurd h hne
      · exact fun hh => h (hh ▸ rfl)
    · have hmem : i ∈ colIdxs col := (mem_colIdxs hc).mpr ⟨hi, by omega⟩
      have := hcol i hmem
      rcases this with h | h
      · exact absurd h hne
      · exact fun hh => h (hh ▸ rfl)
    · have hmem : i ∈ blockIdxs ((row / 3) * 3 + col / 3) :=
        (mem_blockIdxs hblk).mpr ⟨hi, by rw [← hp, hblkOf]⟩
      have := hblock i hmem
      rcases this with h | h
      · exact absurd h hne
      · exact fun hh => h (hh ▸ rfl)
  · intro h
    refine ⟨⟨?_, ?_⟩, ?_⟩
    · intro i hmem
      rw [mem_rowIdxs hr] at hmem
      by_cases hi : i = row * 9 + col
      · exact Or.inl hi
      · refine Or.inr ?_
        have := h i hmem.1 hi (Or.inl (by omega))
        exact fun hh => this (by omega)
    · intro i hmem
      rw [mem_colIdxs hc] at hmem
      by_cases hi : i = row * 9 + col
      · exact Or.inl hi
      · refine Or.inr ?_
        have := h i hmem.1 hi (Or.inr (Or.inl (by omega)))
        exact fun hh => this (by omega)
    · intro i hmem
      rw [mem_blockIdxs hblk] at hmem
      by_cases hi : i = row * 9 + col
      · exact Or.inl hi
      · refine Or.inr ?_
        have := h i hmem.1 hi (Or.inr (Or.inr (by rw [hblkOf, hmem.2])))
        exact fun hh => this (by omega)

/-- Pigeonhole: nine pairwise-distinct values drawn from `[1, 9]` hit every
digit of `[1, 9]` exactly once. -/
theorem count_eq_one_of_nine (l : List Nat) (h9 : l.length = 9) (hnd : l.Nodup)
    (hmem : ∀ x ∈ l, 1 ≤ x ∧ x ≤ 9) (d : Nat) (hd1 : 1 ≤ d) (hd9 : d ≤ 9) :
    l.count d = 1 := by
  have hsub : l ⊆ List.range' 1 9 := by
    intro x hx
    rw [List.mem_range'_1]
    exact ⟨(hmem x hx).1, by have := (hmem x hx).2; omega⟩
  have hperm : l.Perm (List.range' 1 9) :=
    (List.subperm_of_subset hnd hsub).perm_of_length_le (by simp [h9])
  rw [hperm.count_eq]
  exact List.count_eq_one_of_mem (List.nodup_range' ..) (by rw [List.mem_range'_1]; omega)

theorem length_rowIdxs (r : Nat) : (rowIdxs r).length = 9 := by simp [rowIdxs]

theorem length_colIdxs (c : Nat) : (colIdxs c).length = 9 := by simp [colIdxs]

theorem length_blockIdxs (b : Nat) : (blockIdxs b).length = 9 := by simp [blockIdxs]

/-- A board in which every cell is `PlacedOK` is a solved grid. -/
theorem solvedGrid_of_placedOK (board : List Nat)
    (h : ∀ c, c < 81 → PlacedOK board c) : SolvedGrid board := by
  have hdistinct : ∀ i j, i < 81 → j < 81 → i ≠ j → isPeer i j →
      board.getD i 0 ≠ board.getD j 0 := by
    intro i j hi hj hne hp
    exact fun hh => (h j hj).2.2 i hi hne (isPeer_symm hp) hh
  have hcnt : ∀ idxs : List Nat, idxs.length = 9 → idxs.Nodup →
      (∀ i ∈ idxs, i < 81) → (∀ i ∈ idxs, ∀ j ∈ idxs, i ≠ j → isPeer i j) →
      ∀ d, d < 10 → 1 ≤ d → (idxs.map (fun i => board.getD i 0)).count d = 1 := by
    intro idxs hlen hnd hin hpeer d hd10 hd1
    apply count_eq_one_of_nine _ (by simp [hlen]) _ _ d hd1 (by omega)
    · apply hnd.map_on
      intro x hx y hy hxy
      by_contra hne
      exact hdistinct x y (hin x hx) (hin y hy) hne (hpeer x hx y hy hne) hxy
    · intro x hx
      rw [List.mem_map] at hx
      obtain ⟨i, hi, rfl⟩ := hx
      exact ⟨(h i (hin i hi)).1, (h i (hin i hi)).2.1⟩
  refine ⟨fun c hc => ⟨(h c hc).1, (h c hc).2.1⟩, ?_, ?_, ?_⟩
  · intro r hr d hd10 hd1
    refine hcnt (rowIdxs r) (length_rowIdxs r) ?_ ?_ ?_ d hd10 hd1
    · simp only [rowIdxs]
      exact (List.nodup_range 9).map_on (fun x _ y _ => by omega)
    · intro i hi
      exact ((mem_rowIdxs hr).mp hi).1
    · intro i hi j hj hne
      have h1 := (mem_rowIdxs hr).mp hi
      have h2 := (mem_rowIdxs hr).mp hj
      exact Or.inl (h1.2.trans h2.2.symm)
  · intro c hc d hd10 hd1
    refine hcnt (colIdxs c) (length_colIdxs c) ?_ ?_ ?_ d hd10 hd1
    · simp only [colIdxs]
      exact (List.nodup_range 9).map_on (fun x _ y _ => by omega)
    · intro i hi
      exact ((mem_colIdxs hc).mp hi).1
    · intro i hi j hj hne
      have h1 := (mem_colIdxs hc).mp hi
      have h2 := (mem_colIdxs hc).mp hj
      exact Or.inr (Or.inl (h1.2.trans h2.2.symm))
  · intro b hb d hd10 hd1
    refine hcnt (blockIdxs b) (length_blockIdxs b) ?_ ?_ ?_ d hd10 hd1
    · simp only [blockIdxs]
      exact (List.nodup_range 9).map_on (fun x _ y _ => by omega)
    · intro i hi
      exact ((mem_blockIdxs hb).mp hi).1
    · intro i hi j hj hne
      have h1 := (mem_blockIdxs hb).mp hi
      have h2 := (mem_blockIdxs hb).mp hj
      exact Or.inr (Or.inr (h1.2.trans h2.2.symm))

/-- A successful `find_solution` yields a digit in `[1, 9]` that is valid. -/
theorem find_solution_some {board : List Nat} {row col s : Nat}
    (h : find_solution board row col = some s) :
    is_valid_cell board row col s = true ∧ 1 ≤ s ∧ s ≤ 9 := by
  unfold find_solution at h
  have hp := List.find?_some h
  have hm := List.mem_of_find?_eq_some h
  rw [List.mem_range'_1] at hm
  exact ⟨hp, by omega, by omega⟩

theorem set_cell_div_mod (board : List Nat) (u v : Nat) :
    set_cell board (u / 9) (u % 9) v = board.set u v := by
  unfold set_cell
  congr 1
  omega

/-- Writing a fresh valid digit at an unsolved cell keeps every other
well-placed cell well placed. -/
theorem placedOK_of_write {board : List Nat} {u s c : Nat}
    (hlen : board.length = 81) (hu : u < 81) (hc : c < 81) (hne : c ≠ u)
    (hval : is_valid_cell board (u / 9) (u % 9) s = true)
    (hok : PlacedOK board c) : PlacedOK (board.set u s) c := by
  have hvalid := (is_valid_cell_iff board (u / 9) (u % 9) s (by omega) (by omega)).mp hval
  have hu9 : u / 9 * 9 + u % 9 = u := by omega
  rw [hu9] at hvalid
  have hcval : (board.set u s).getD c 0 = board.getD c 0 := getD_set_ne _ _ _ _ (fun hh => hne hh.symm)
  refine ⟨hcval ▸ hok.1, hcval ▸ hok.2.1, ?_⟩
  intro i hi hine hpeer
  rw [hcval]
  by_cases hiu : i = u
  · subst hiu
    rw [getD_set_self _ _ _ (by omega)]
    exact fun hh => hvalid c hc hne (isPeer_symm hpeer) hh.symm
  · rw [getD_set_ne _ _ _ _ (fun hh => hiu hh.symm)]
    exact hok.2.2 i hi hine hpeer

/-- The freshly written cell itself is well placed. -/
theorem placedOK_new {board : List Nat} {u s : Nat}
    (hlen : board.length = 81) (hu : u < 81)
    (hval : is_valid_cell board (u / 9) (u % 9) s = true)
    (hs1 : 1 ≤ s) (hs9 : s ≤ 9) : PlacedOK (board.set u s) u := by
  have hvalid := (is_valid_cell_iff board (u / 9) (u % 9) s (by omega) (by omega)).mp hval
  have hu9 : u / 9 * 9 + u % 9 = u := by omega
  rw [hu9] at hvalid
  have huval : (board.set u s).getD u 0 = s := getD_set_self _ _ _ (by omega)
  refine ⟨?_, ?_, ?_⟩
  · rw [huval]; exact hs1
  · rw [huval]; exact hs9
  · intro i hi hine hpeer
    rw [huval, getD_set_ne _ _ _ _ (fun hh => hine hh.symm)]
    exact hvalid i hi hine hpeer

/-- Clearing a cell (writing `0`) keeps every other well-placed cell
well placed. -/
theorem placedOK_of_clear {board : List Nat} {u c : Nat}
    (hne : c ≠ u) (hok : PlacedOK board c) : PlacedOK (board.set u 0) c := by
  have hcval : (board.set u 0).getD c 0 = board.getD c 0 := getD_set_ne _ _ _ _ (fun hh => hne hh.symm)
  refine ⟨hcval ▸ hok.1, hcval ▸ hok.2.1, ?_⟩
  intro i hi hine hpeer
  rw [hcval]
  by_cases hiu : i = u
  · subst hiu
    by_cases hil : i < board.length
    · rw [getD_set_self _ _ _ hil]
      have := hok.1
      omega
    · rw [List.set_eq_of_length_le (by omega)]
      exact hok.2.2 i hi hine hpeer
  · rw [getD_set_ne _ _ _ _ (fun hh => hiu hh.symm)]
    exact hok.2.2 i hi hine hpeer

theorem solveLoop_exit {unsolved : List Nat} {idx : Nat} (fuel : Nat) (board : List Nat)
    (h : ¬ idx < unsolved.length) : solveLoop unsolved fuel board idx = .ok board := by
  conv_lhs => unfold solveLoop
  rw [if_neg h]

theorem solveLoop_zero {unsolved : List Nat} {idx : Nat} (board : List Nat)
    (h : idx < unsolved.length) : solveLoop unsolved 0 board idx = .fuelOut := by
  conv_lhs => unfold solveLoop
  rw [if_pos h]

theorem solveLoop_succ_some {unsolved board idx fuel s} (h : idx < unsolved.length)
    (hf : find_solution board (unsolved.getD idx 0 / 9) (unsolved.getD idx 0 % 9) = some s) :
    solveLoop unsolved (fuel + 1) board idx =
      solveLoop unsolved fuel
        (set_cell board (unsolved.getD idx 0 / 9) (unsolved.getD idx 0 % 9) s) (idx + 1) := by
  conv_lhs => unfold solveLoop
  rw [if_pos h]
  simp only [hf]

theorem solveLoop_succ_none_zero {unsolved : List Nat} {board : List Nat} {fuel : Nat}
    (h : 0 < unsolved.length)
    (hf : find_solution board (unsolved.getD 0 0 / 9) (unsolved.getD 0 0 % 9) = none) :
    solveLoop unsolved (fuel + 1) board 0 = .panic := by
  conv_lhs => unfold solveLoop
  rw [if_pos h]
  simp only [hf]
  rfl

theorem solveLoop_succ_none {unsolved board idx fuel} (h : idx < unsolved.length) (h0 : idx ≠ 0)
    (hf : find_solution board (unsolved.getD idx 0 / 9) (unsolved.getD idx 0 % 9) = none) :
    solveLoop unsolved (fuel + 1) board idx =
      solveLoop unsolved fuel
        (set_cell board (unsolved.getD idx 0 / 9) (unsolved.getD idx 0 % 9) 0) (idx - 1) := by
  conv_lhs => unfold solveLoop
  rw [if_pos h]
  simp only [hf, if_neg h0]

/-- Invariant of the backtracking loop: when `solveLoop` returns `.ok`,
every cell of the final board is well placed. -/
theorem solveLoop_ok_placedOK (unsolved : List Nat)
    (hnd : unsolved.Nodup) (hbnd : ∀ u ∈ unsolved, u < 81) :
    ∀ fuel board idx board',
      board.length = 81 →
      (∀ k, k < idx → k < unsolved.length → PlacedOK board (unsolved.getD k 0)) →
      (∀ c, c < 81 → c ∉ unsolved → PlacedOK board c) →
      solveLoop unsolved fuel board idx = .ok board' →
      ∀ c, c < 81 → PlacedOK board' c := by
  have hexit : ∀ board idx board', board.length = 81 →
      ¬ idx < unsolved.length →
      (∀ k, k < idx → k < unsolved.length → PlacedOK board (unsolved.getD k 0)) →
      (∀ c, c < 81 → c ∉ unsolved → PlacedOK board c) →
      board = board' → ∀ c, c < 81 → PlacedOK board' c := by
    intro board idx board' _ hidx hpart hclue heq c hc
    subst heq
    by_cases hcu : c ∈ unsolved
    · obtain ⟨k, hk, hkc⟩ := List.getElem_of_mem hcu
      have := hpart k (by omega) hk
      rwa [List.getD_eq_getElem _ _ hk, hkc] at this
    · exact hclue c hc hcu
  intro fuel
  induction fuel with
  | zero =>
    intro board idx board' hlen hpart hclue hrun c hc
    by_cases hidx : idx < unsolved.length
    · rw [solveLoop_zero _ hidx] at hrun
      simp at hrun
    · rw [solveLoop_exit _ _ hidx] at hrun
      simp only [SolveResult.ok.injEq] at hrun
      exact hexit board idx board' hlen hidx hpart hclue hrun c hc
  | succ fuel ih =>
    intro board idx board' hlen hpart hclue hrun c hc
    by_cases hidx : idx < unsolved.length
    · have humem : unsolved.getD idx 0 ∈ unsolved := by
        rw [List.getD_eq_getElem _ _ hidx]
        exact List.getElem_mem hidx
      have hu81 : unsolved.getD idx 0 < 81 := hbnd _ humem
      have hgetne : ∀ k, k < unsolved.length → k ≠ idx →
          unsolved.getD k 0 ≠ unsolved.getD idx 0 := by
        intro k hk hkne hh
        rw [List.getD_eq_getElem _ _ hk, List.getD_eq_getElem _ _ hidx] at hh
        exact hkne (hnd.getElem_inj_iff.mp hh)
      cases hfind : find_solution board (unsolved.getD idx 0 / 9) (unsolved.getD idx 0 % 9) with
      | some s =>
        rw [solveLoop_succ_some hidx hfind, set_cell_div_mod] at hrun
        obtain ⟨hval, hs1, hs9⟩ := find_solution_some hfind
        refine ih _ _ _ (by simp [hlen]) ?_ ?_ hrun c hc
        · intro k hk hklen
          by_cases hkidx : k = idx
          · subst hkidx
            exact placedOK_new hlen hu81 hval hs1 hs9
          · exact placedOK_of_write hlen hu81 (hbnd _ (by
              rw [List.getD_eq_getElem _ _ hklen]; exact List.getElem_mem hklen))
              (hgetne k hklen hkidx) hval (hpart k (by omega) hklen)
        · intro c' hc' hc'mem
          exact placedOK_of_write hlen hu81 hc'
            (fun hh => hc'mem (hh ▸ humem)) hval (hclue c' hc' hc'mem)
      | none =>
        by_cases hidx0 : idx = 0
        · subst hidx0
          rw [solveLoop_succ_none_zero hidx hfind] at hrun
          simp at hrun
        · rw [solveLoop_succ_none hidx hidx0 hfind, set_cell_div_mod] at hrun
          refine ih _ _ _ (by simp [hlen]) ?_ ?_ hrun c hc
          · intro k hk hklen
            exact placedOK_of_clear (hgetne k hklen (by omega)) (hpart k (by omega) hklen)
          · intro c' hc' hc'mem
            exact placedOK_of_clear (fun hh => hc'mem (hh ▸ humem)) (hclue c' hc' hc'mem)
    · rw [solveLoop_exit _ _ hidx] at hrun
      simp only [SolveResult.ok.injEq] at hrun
      exact hexit board idx board' hlen hidx hpart hclue hrun c hc

/-- Characterization of `find?` over an ascending range: it returns the least
element of the range satisfying the predicate. -/
theorem find?_range'_eq_some (p : Nat → Bool) :
    ∀ (n s a : Nat), ((List.range' s n).find? p = some a ↔
      s ≤ a ∧ a < s + n ∧ p a = true ∧ ∀ w, s ≤ w → w < a → p w = false) := by
  intro n
  induction n with
  | zero =>
    intro s a
    simp only [List.range'_zero, List.find?_nil]
    constructor
    · intro h; cases h
    · intro ⟨h1, h2, _⟩; omega
  | succ n ih =>
    intro s a
    rw [List.range'_succ, List.find?_cons]
    by_cases hp : p s
    · simp only [hp]
      constructor
      · intro h
        cases h
        exact ⟨le_refl s, by omega, hp, fun w hw1 hw2 => by omega⟩
      · intro ⟨h1, h2, h3, h4⟩
        by_cases has : a = s
        · rw [has]
        · have := h4 s (le_refl s) (by omega)
          rw [hp] at this
          cases this
    · simp only [Bool.not_eq_true] at hp
      simp only [hp]
      rw [ih (s + 1) a]
      constructor
      · intro ⟨h1, h2, h3, h4⟩
        refine ⟨by omega, by omega, h3, fun w hw1 hw2 => ?_⟩
        by_cases hws : w = s
        · rw [hws]; exact hp
        · exact h4 w (by omega) hw2
      · intro ⟨h1, h2, h3, h4⟩
        have has : a ≠ s := fun hh => by rw [hh, hp] at h3; cases h3
        exact ⟨by omega, by omega, h3, fun w hw1 hw2 => h4 w (by omega) hw2⟩

theorem fromIterUnsolved_nodup (clues : List (Nat × Nat)) :
    (fromIterUnsolved clues).Nodup :=
  (List.nodup_range _).filter _

theorem fromIterUnsolved_lt (clues : List (Nat × Nat)) :
    ∀ u ∈ fromIterUnsolved clues, u < 81 := by
  intro u hu
  have := List.mem_of_mem_filter hu
  rw [List.mem_range] at this
  exact this

theorem foldl_set_length (clues : List (Nat × Nat)) :
    ∀ b : List Nat, (clues.foldl (fun b p => b.set p.1 p.2) b).length = b.length := by
  induction clues with
  | nil => intro b; rfl
  | cons hd tl ih =>
    intro b
    rw [List.foldl_cons, ih]
    exact List.length_set ..

theorem fromIterBoard_length (clues : List (Nat × Nat)) :
    (fromIterBoard clues).length = 81 := by
  unfold fromIterBoard
  rw [foldl_set_length]
  simp [AREA, DIMS]

end Backtracking

namespace Claims

open Backtracking

/-- C1: the claim says an unsolvable puzzle makes `solve()` stop at the
cursor boundary and report unsolvability as a distinct outcome instead of
crashing.  The code has no such handling: on the unsolvable clue set
`c1Clues` (cell 0 admits no digit), the very first iteration decrements the
`usize` cursor at `0`, which is a crash (debug overflow panic, or wrap-around
followed by an out-of-bounds index).  The embedding returns `.panic`. -/
theorem C1_unsolvable_crashes :
    from_iter c1Clues = some ⟨fromIterBoard c1Clues, fromIterUnsolved c1Clues⟩ ∧
      solveLoop (fromIterUnsolved c1Clues) 10 (fromIterBoard c1Clues) 0 = .panic := by
  constructor
  · decide
  · decide

/-- C2: for every well-formed input (each clue cell holds a digit in `[1,9]`
conflicting with no cell it sees), if the backtracking loop terminates
normally — the cursor reached the length of the unsolved-cell list — the
final grid holds a digit in `[1,9]` in every cell and every row, column and
3×3 block contains each digit `1`–`9` exactly once. -/
theorem C2_solve_ok_solved (clues : List (Nat × Nat)) (s : Sudoku)
    (fuel : Nat) (board' : List Nat)
    (hcons : from_iter clues = some s)
    (hwf : ∀ c, c < 81 → c ∉ s.unsolved_cells → PlacedOK s.board c)
    (hrun : solveLoop s.unsolved_cells fuel s.board 0 = .ok board') :
    SolvedGrid board' := by
  unfold from_iter at hcons
  split at hcons
  · injection hcons with h
    subst h
    apply solvedGrid_of_placedOK
    exact solveLoop_ok_placedOK _ (fromIterUnsolved_nodup clues)
      (fromIterUnsolved_lt clues) fuel _ 0 board' (fromIterBoard_length clues)
      (fun k hk _ => absurd hk (Nat.not_lt_zero k)) hwf hrun
  · cases hcons

set_option maxRecDepth 10000 in
/-- Witness for C2: the 80-clue instance `demoClues` (the canonical grid with
cell 80 blanked) is well formed, the loop exits normally, and the resulting
grid is fully solved. -/
theorem C2_witness : SolvedGrid demoSolvedBoard :=
  C2_solve_ok_solved demoClues ⟨demoSolvedBoard.set 80 0, [80]⟩ 2 demoSolvedBoard
    (by decide) (by decide) (by decide)

/-- C6: `is_valid_cell row col value` returns `true` iff `value` does not
already appear in any cell other than `(row, col)` among the cells of that
row, column and block (the function is pure: in the embedding it is a plain
function of the board). -/
theorem C6_is_valid_cell_spec (board : List Nat) (row col value : Nat)
    (hr : row < 9) (hc : col < 9) :
    is_valid_cell board row col value = true ↔
      ∀ i, i < 81 → i ≠ row * 9 + col → isPeer (row * 9 + col) i →
        board.getD i 0 ≠ value :=
  is_valid_cell_iff board row col value hr hc

set_option maxRecDepth 10000 in
/-- Witness for C6 at a concrete board and cell. -/
theorem C6_witness :
    (is_valid_cell demoSolvedBoard 0 1 5 = true ↔
      ∀ i, i < 81 → i ≠ 0 * 9 + 1 → isPeer (0 * 9 + 1) i →
        demoSolvedBoard.getD i 0 ≠ 5) :=
  C6_is_valid_cell_spec demoSolvedBoard 0 1 5 (by decide) (by decide)

/-- C7: `find_solution row col` returns `some v` exactly when `v` is the
smallest value strictly greater than the cell's current value that satisfies
`is_valid_cell`, and `none` exactly when no value in `(current, 9]`
satisfies it. -/
theorem C7_find_solution_spec (board : List Nat) (row col : Nat) :
    (∀ v, find_solution board row col = some v ↔
        get_cell board row col < v ∧ v ≤ 9 ∧
          is_valid_cell board row col v = true ∧
          ∀ w, get_cell board row col < w → w < v →
            is_valid_cell board row col w = false) ∧
    (find_solution board row col = none ↔
        ∀ w, get_cell board row col < w → w ≤ 9 →
          is_valid_cell board row col w = false) := by
  constructor
  · intro v
    unfold find_solution
    rw [find?_range'_eq_some]
    constructor
    · intro ⟨h1, h2, h3, h4⟩
      exact ⟨by omega, by omega, h3, fun w hw1 hw2 => h4 w (by omega) hw2⟩
    · intro ⟨h1, h2, h3, h4⟩
      exact ⟨by omega, by omega, h3, fun w hw1 hw2 => h4 w (by omega) hw2⟩
  · unfold find_solution
    rw [List.find?_eq_none]
    constructor
    · intro h w hw1 hw9
      have hmem : w ∈ List.range' (get_cell board row col + 1)
          (10 - (get_cell board row col + 1)) := by
        rw [List.mem_range'_1]
        omega
      have := h w hmem
      cases hb : is_valid_cell board row col w
      · rfl
      · exact absurd hb this
    · intro h w hmem
      rw [List.mem_range'_1] at hmem
      have := h w (by omega) (by omega)
      rw [this]
      simp

/-- Witness for C7 at a concrete board and cell. -/
theorem C7_witness :
    (∀ v, find_solution demoSolvedBoard 8 8 = some v ↔
        get_cell demoSolvedBoard 8 8 < v ∧ v ≤ 9 ∧
          is_valid_cell demoSolvedBoard 8 8 v = true ∧
          ∀ w, get_cell demoSolvedBoard 8 8 < w → w < v →
            is_valid_cell demoSolvedBoard 8 8 w = false) ∧
    (find_solution demoSolvedBoard 8 8 = none ↔
        ∀ w, get_cell demoSolvedBoard 8 8 < w → w ≤ 9 →
          is_valid_cell demoSolvedBoard 8 8 w = false) :=
  C7_find_solution_spec demoSolvedBoard 8 8

end Claims

namespace Naive

theorem getD_set_self' {α : Type} (l : List α) (i : Nat) (a d : α) (h : i < l.length) :
    (l.set i a).getD i d = a := by
  rw [List.getD_eq_getElem?_getD, List.getElem?_set_self', List.getElem?_eq_getElem h]
  rfl

theorem getD_set_ne' {α : Type} (l : List α) (i j : Nat) (a d : α) (h : i ≠ j) :
    (l.set i a).getD j d = l.getD j d := by
  rw [List.getD_eq_getElem?_getD, List.getElem?_set_ne h, ← List.getD_eq_getElem?_getD]

theorem set_getD_self {α : Type} (l : List α) (i : Nat) (d : α) (h : i < l.length) :
    l.set i (l.getD i d) = l := by
  apply List.ext_getElem (by simp)
  intro k h1 h2
  simp only [List.getElem_set]
  by_cases hik : i = k
  · subst hik
    rw [if_pos rfl, List.getD_eq_getElem?_getD, List.getElem?_eq_getElem h]
    rfl
  · rw [if_neg hik]

/-- A singleton possibility set is exactly the singleton of its `resolve`. -/
theorem resolve_singleton (s : Finset Nat) (h : s.card = 1) :
    s = {Cell.resolve s} := by
  obtain ⟨a, ha⟩ := Finset.card_eq_one.mp h
  subst ha
  simp [Cell.resolve]

theorem length_setCell (cells : List (List (Finset Nat))) (x y : Nat) (c : Finset Nat) :
    (setCell cells x y c).length = cells.length := by
  simp [setCell]

theorem getCell_setCell_ne (cells : List (List (Finset Nat))) (x y x' y' : Nat)
    (c : Finset Nat) (h : ¬ (x' = x ∧ y' = y)) :
    getCell (setCell cells x y c) x' y' = getCell cells x' y' := by
  by_cases hx : x' = x
  · subst hx
    have hy : y' ≠ y := fun hh => h ⟨rfl, hh⟩
    by_cases hxl : x' < cells.length
    · unfold getCell setCell
      rw [getD_set_self' _ _ _ _ hxl, getD_set_ne' _ _ _ _ _ (fun hh => hy hh.symm)]
    · unfold getCell setCell
      rw [List.set_eq_of_length_le (by omega)]
  · unfold getCell setCell
    rw [getD_set_ne' _ _ _ _ _ (fun hh => hx hh.symm)]

theorem getCell_setCell_self (cells : List (List (Finset Nat))) (x y : Nat)
    (c : Finset Nat) (hx : x < cells.length) (hy : y < (cells.getD x []).length) :
    getCell (setCell cells x y c) x y = c := by
  unfold getCell setCell
  rw [getD_set_self' _ _ _ _ hx, getD_set_self' _ _ _ _ hy]

theorem setCell_out (cells : List (List (Finset Nat))) (x y : Nat) (c : Finset Nat)
    (h : ¬ (x < cells.length ∧ y < (cells.getD x []).length)) :
    setCell cells x y c = cells := by
  by_cases hx : x < cells.length
  · have hy : ¬ y < (cells.getD x []).length := fun hh => h ⟨hx, hh⟩
    unfold setCell
    have hinner : (cells.getD x []).set y c = cells.getD x [] :=
      List.set_eq_of_length_le (by omega)
    rw [hinner, set_getD_self _ _ _ hx]
  · unfold setCell
    exact List.set_eq_of_length_le (by omega)

/-- Out-of-grid cells read as the empty set. -/
theorem getCell_out (cells : List (List (Finset Nat))) (x y : Nat)
    (h : ¬ (x < cells.length ∧ y < (cells.getD x []).length)) :
    getCell cells x y = ∅ := by
  by_cases hx : x < cells.length
  · have hy : ¬ y < (cells.getD x []).length := fun hh => h ⟨hx, hh⟩
    unfold getCell
    exact List.getD_eq_default _ _ (by omega)
  · unfold getCell
    rw [List.getD_eq_default cells [] (by omega)]
    simp

/-- One `reduce_cell_possibilities` call, seen cell by cell: the visited
cell becomes its `targetCell`, every other cell is untouched. -/
theorem reduce_cell_getCell (b : Board) (x y v x' y' : Nat) :
    getCell (reduce_cell_possibilities b x y v).cells x' y' =
      if x' = x ∧ y' = y then targetCell b x y v else getCell b.cells x' y' := by
  unfold reduce_cell_possibilities targetCell Cell.is_solved Cell.remove_possibility
  by_cases hs : (getCell b.cells x y).card = 1
  · simp only [hs, beq_self_eq_true, if_true]
    by_cases hxy : x' = x ∧ y' = y
    · obtain ⟨rfl, rfl⟩ := hxy
      simp
    · simp [hxy]
  · simp only [hs, if_false]
    have hbeq : ((getCell b.cells x y).card == 1) = false := by
      simp [hs]
    rw [hbeq]
    simp only [Bool.false_eq_true, if_false]
    by_cases hin : x < b.cells.length ∧ y < (b.cells.getD x []).length
    · by_cases hc : ((getCell b.cells x y).erase v).card = 1
      · simp only [hc, beq_self_eq_true, if_true]
        by_cases hxy : x' = x ∧ y' = y
        · rw [if_pos hxy, hxy.1, hxy.2]
          exact getCell_setCell_self _ _ _ _ hin.1 hin.2
        · rw [if_neg hxy]
          exact getCell_setCell_ne _ _ _ _ _ _ hxy
      · have hbeq2 : (((getCell b.cells x y).erase v).card == 1) = false := by
          simp [hc]
        rw [hbeq2]
        simp only [Bool.false_eq_true, if_false]
        by_cases hxy : x' = x ∧ y' = y
        · rw [if_pos hxy, hxy.1, hxy.2]
          exact getCell_setCell_self _ _ _ _ hin.1 hin.2
        · rw [if_neg hxy]
          exact getCell_setCell_ne _ _ _ _ _ _ hxy
    · have hout : getCell b.cells x y = ∅ := getCell_out _ _ _ hin
      have herase : (∅ : Finset Nat).erase v = ∅ := Finset.erase_empty v
      rw [hout, herase]
      simp only [Finset.card_empty]
      norm_num
      rw [setCell_out _ _ _ _ hin]
      by_cases hxy : x' = x ∧ y' = y
      · obtain ⟨rfl, rfl⟩ := hxy
        simp [hout, herase]
      · simp [hxy]

theorem reduce_cell_of_solved {b : Board} {x y : Nat} (v : Nat)
    (h : (getCell b.cells x y).card = 1) :
    reduce_cell_possibilities b x y v = b := by
  unfold reduce_cell_possibilities Cell.is_solved
  simp [h]

theorem reduce_cell_of_collapse {b : Board} {x y : Nat} (v : Nat)
    (h1 : (getCell b.cells x y).card ≠ 1)
    (h2 : ((getCell b.cells x y).erase v).card = 1) :
    reduce_cell_possibilities b x y v =
      ⟨setCell b.cells x y ((getCell b.cells x y).erase v),
       b.solved_cells ++ [(x, y, Cell.resolve ((getCell b.cells x y).erase v))]⟩ := by
  unfold reduce_cell_possibilities Cell.is_solved Cell.remove_possibility
  simp [h1, h2]

theorem reduce_cell_of_noncollapse {b : Board} {x y : Nat} (v : Nat)
    (h1 : (getCell b.cells x y).card ≠ 1)
    (h2 : ((getCell b.cells x y).erase v).card ≠ 1) :
    reduce_cell_possibilities b x y v =
      ⟨setCell b.cells x y ((getCell b.cells x y).erase v), b.solved_cells⟩ := by
  unfold reduce_cell_possibilities Cell.is_solved Cell.remove_possibility
  simp [h1, h2]

/-- The queue after one `reduce_cell_possibilities` call: one record appended
exactly when the visited cell collapses to a singleton, otherwise
unchanged. -/
theorem reduce_cell_queue (b : Board) (x y v : Nat) :
    (reduce_cell_possibilities b x y v).solved_cells =
      if (getCell b.cells x y).card ≠ 1 ∧ ((getCell b.cells x y).erase v).card = 1
      then b.solved_cells ++ [(x, y, Cell.resolve ((getCell b.cells x y).erase v))]
      else b.solved_cells := by
  by_cases hs : (getCell b.cells x y).card = 1
  · rw [reduce_cell_of_solved v hs, if_neg (fun hh => hh.1 hs)]
  · by_cases hc : ((getCell b.cells x y).erase v).card = 1
    · rw [reduce_cell_of_collapse v hs hc, if_pos ⟨hs, hc⟩]
    · rw [reduce_cell_of_noncollapse v hs hc, if_neg (fun hh => hc hh.2)]

/-- One reduction call only ever shrinks possibility sets. -/
theorem reduce_cell_subset (b : Board) (x y v x' y' : Nat) :
    getCell (reduce_cell_possibilities b x y v).cells x' y' ⊆ getCell b.cells x' y' := by
  rw [reduce_cell_getCell]
  by_cases hxy : x' = x ∧ y' = y
  · rw [if_pos hxy, hxy.1, hxy.2]
    unfold targetCell
    by_cases hs : (getCell b.cells x y).card = 1
    · rw [if_pos hs]
    · rw [if_neg hs]
      exact Finset.erase_subset ..
  · rw [if_neg hxy]

theorem sum_map_set {α : Type} (f : α → Nat) :
    ∀ (l : List α) (x : Nat) (a : α), x < l.length →
      ((l.set x a).map f).sum + f (l.getD x a) = (l.map f).sum + f a := by
  intro l
  induction l with
  | nil => intro x a hx; simp at hx
  | cons hd tl ih =>
    intro x a hx
    cases x with
    | zero => simp [List.getD_cons_zero]; omega
    | succ n =>
      have := ih n a (by simpa using hx)
      simp only [List.set_cons_succ, List.map_cons, List.sum_cons, List.getD_cons_succ]
      omega

theorem filter_length_set {α : Type} (p : α → Bool) :
    ∀ (l : List α) (y : Nat) (c : α), y < l.length →
      ((l.set y c).filter p).length + (if p (l.getD y c) then 1 else 0) =
        (l.filter p).length + (if p c then 1 else 0) := by
  intro l
  induction l with
  | nil => intro y c hy; simp at hy
  | cons hd tl ih =>
    intro y c hy
    cases y with
    | zero =>
      simp only [List.set_cons_zero, List.getD_cons_zero, List.filter_cons]
      by_cases hc : p c <;> by_cases hh : p hd <;> simp [hc, hh] <;> omega
    | succ n =>
      have := ih n c (by simpa using hy)
      simp only [List.set_cons_succ, List.getD_cons_succ, List.filter_cons]
      by_cases hh : p hd
      · simp only [hh, if_true, List.length_cons]
        omega
      · simp only [hh, Bool.false_eq_true, if_false]
        omega

/-- Reading a cell in the grid equals the nested `getD` chain. -/
theorem getCell_eq (cells : List (List (Finset Nat))) (x y : Nat) :
    getCell cells x y = (cells.getD x []).getD y ∅ := rfl

/-- For an in-range index the `getD` default is irrelevant. -/
theorem getD_eq_getD {α : Type} (l : List α) (i : Nat) (d1 d2 : α)
    (h : i < l.length) : l.getD i d1 = l.getD i d2 := by
  rw [List.getD_eq_getElem?_getD, List.getD_eq_getElem?_getD,
    List.getElem?_eq_getElem h]
  rfl

/-- The termination measure is preserved exactly by every
`reduce_cell_possibilities` call: an enqueue (+1) happens precisely when a
cell leaves the not-yet-solved count (−1). -/
theorem potential_reduce_cell (b : Board) (x y v : Nat) :
    potential (reduce_cell_possibilities b x y v) = potential b := by
  by_cases hs : (getCell b.cells x y).card = 1
  · rw [reduce_cell_of_solved v hs]
  · by_cases hin : x < b.cells.length ∧ y < (b.cells.getD x []).length
    · have hrow : (b.cells.getD x []).getD y ((getCell b.cells x y).erase v) =
          getCell b.cells x y := getD_eq_getD _ _ _ _ hin.2
      have houter : b.cells.getD x ((b.cells.getD x []).set y
            ((getCell b.cells x y).erase v)) = b.cells.getD x [] :=
        getD_eq_getD _ _ _ _ hin.1
      have hinner := filter_length_set (fun c => c.card != 1) (b.cells.getD x [])
        y ((getCell b.cells x y).erase v) hin.2
      simp only [] at hinner
      rw [hrow] at hinner
      have hif1 : (if ((getCell b.cells x y).card != 1) = true then (1:Nat) else 0) = 1 := by
        simp [hs]
      have hout := sum_map_set (fun row => (row.filter (fun c => c.card != 1)).length)
        b.cells x ((b.cells.getD x []).set y ((getCell b.cells x y).erase v)) hin.1
      simp only [] at hout
      rw [houter] at hout
      by_cases hc : ((getCell b.cells x y).erase v).card = 1
      · rw [reduce_cell_of_collapse v hs hc]
        unfold potential unsolvedCount setCell
        have hif2 : (if (((getCell b.cells x y).erase v).card != 1) = true
            then (1:Nat) else 0) = 0 := by simp [hc]
        simp only [List.length_append, List.length_cons, List.length_nil]
        omega
      · rw [reduce_cell_of_noncollapse v hs hc]
        unfold potential unsolvedCount setCell
        have hif2 : (if (((getCell b.cells x y).erase v).card != 1) = true
            then (1:Nat) else 0) = 1 := by simp [hc]
        dsimp only
        omega
    · have hout : getCell b.cells x y = ∅ := getCell_out _ _ _ hin
      have hc : ((getCell b.cells x y).erase v).card ≠ 1 := by
        rw [hout, Finset.erase_empty]
        simp
      rw [reduce_cell_of_noncollapse v hs hc, setCell_out _ _ _ _ hin]

theorem reduceMany_nil (b : Board) (v : Nat) : reduceMany b [] v = b := rfl

theorem reduceMany_cons (b : Board) (p : Nat × Nat) (ps : List (Nat × Nat)) (v : Nat) :
    reduceMany b (p :: ps) v =
      reduceMany (reduce_cell_possibilities b p.1 p.2 v) ps v := rfl

theorem potential_reduceMany (v : Nat) :
    ∀ (ps : List (Nat × Nat)) (b : Board),
      potential (reduceMany b ps v) = potential b := by
  intro ps
  induction ps with
  | nil => intro b; rfl
  | cons p rest ih =>
    intro b
    rw [reduceMany_cons, ih, potential_reduce_cell]

theorem reduceMany_subset (v : Nat) :
    ∀ (ps : List (Nat × Nat)) (b : Board) (x y : Nat),
      getCell (reduceMany b ps v).cells x y ⊆ getCell b.cells x y := by
  intro ps
  induction ps with
  | nil => intro b x y; exact Finset.Subset.refl _
  | cons p rest ih =>
    intro b x y
    rw [reduceMany_cons]
    exact (ih _ x y).trans (reduce_cell_subset b p.1 p.2 v x y)

theorem targetSet_idem (s : Finset Nat) (v : Nat) :
    (if (if s.card = 1 then s else s.erase v).card = 1
     then (if s.card = 1 then s else s.erase v)
     else (if s.card = 1 then s else s.erase v).erase v) =
      (if s.card = 1 then s else s.erase v) := by
  by_cases hs : s.card = 1
  · simp [hs]
  · rw [if_neg hs]
    by_cases hc : (s.erase v).card = 1
    · simp [hc]
    · rw [if_neg hc]
      exact Finset.erase_idem

theorem targetCell_congr {b b' : Board} {x y : Nat} (v : Nat)
    (h : getCell b'.cells x y = getCell b.cells x y) :
    targetCell b' x y v = targetCell b x y v := by
  unfold targetCell
  rw [h]

/-- Each coordinate visited at least once by a reduction pass holds its
`targetCell`; unvisited coordinates are untouched.  Visiting a coordinate
twice has no further effect. -/
theorem reduceMany_getCell (v : Nat) :
    ∀ (ps : List (Nat × Nat)) (b : Board) (x y : Nat),
      getCell (reduceMany b ps v).cells x y =
        if (x, y) ∈ ps then targetCell b x y v else getCell b.cells x y := by
  intro ps
  induction ps with
  | nil => intro b x y; simp [reduceMany_nil]
  | cons p rest ih =>
    intro b x y
    rw [reduceMany_cons, ih]
    by_cases hp : (x, y) = p
    · subst hp
      have hcell : getCell (reduce_cell_possibilities b x y v).cells x y =
          targetCell b x y v := by
        rw [reduce_cell_getCell]
        exact if_pos ⟨rfl, rfl⟩
      rw [if_pos (List.mem_cons_self _ _)]
      by_cases hmem : ((x, y) : Nat × Nat) ∈ rest
      · rw [if_pos hmem]
        unfold targetCell
        rw [hcell]
        show (if (targetCell b x y v).card = 1 then targetCell b x y v
          else (targetCell b x y v).erase v) = targetCell b x y v
        unfold targetCell
        exact targetSet_idem _ v
      · rw [if_neg hmem]
        exact hcell
    · have hne : ¬ (x = p.1 ∧ y = p.2) := by
        intro ⟨h1, h2⟩
        apply hp
        rw [Prod.ext_iff]
        exact ⟨h1, h2⟩
      have hcell : getCell (reduce_cell_possibilities b p.1 p.2 v).cells x y =
          getCell b.cells x y := by
        rw [reduce_cell_getCell]
        exact if_neg hne
      have hmemiff : ((x, y) ∈ p :: rest) ↔ ((x, y) : Nat × Nat) ∈ rest := by
        rw [List.mem_cons]
        constructor
        · intro h
          rcases h with h | h
          · exact absurd h hp
          · exact h
        · exact Or.inr
      by_cases hmem : ((x, y) : Nat × Nat) ∈ rest
      · rw [if_pos hmem, if_pos (hmemiff.mpr hmem)]
        exact targetCell_congr v hcell
      · rw [if_neg hmem, if_neg (fun hh => hmem (hmemiff.mp hh))]
        exact hcell

theorem count_append_singleton (l : List (Nat × Nat × Nat)) (a e : Nat × Nat × Nat) :
    (l ++ [e]).count a = l.count a + (if a = e then 1 else 0) := by
  rw [List.count_append]
  congr 1
  by_cases h : a = e
  · simp [h]
  · simp [h, List.count_cons]

/-- The queue only grows at the back. -/
theorem reduceMany_queue_prefix (v : Nat) :
    ∀ (ps : List (Nat × Nat)) (b : Board),
      ∃ l, (reduceMany b ps v).solved_cells = b.solved_cells ++ l := by
  intro ps
  induction ps with
  | nil => intro b; exact ⟨[], by simp [reduceMany_nil]⟩
  | cons p rest ih =>
    intro b
    rw [reduceMany_cons]
    obtain ⟨l1, hl1⟩ := ih (reduce_cell_possibilities b p.1 p.2 v)
    rw [hl1, reduce_cell_queue]
    by_cases hcond : (getCell b.cells p.1 p.2).card ≠ 1 ∧
        ((getCell b.cells p.1 p.2).erase v).card = 1
    · rw [if_pos hcond]
      exact ⟨[(p.1, p.2, Cell.resolve ((getCell b.cells p.1 p.2).erase v))] ++ l1,
        by rw [List.append_assoc]⟩
    · rw [if_neg hcond]
      exact ⟨l1, rfl⟩

/-- The queue after one `reduce_cell_possibilities` call, record by
record. -/
theorem reduce_cell_queue_count (b : Board) (x y v x' y' w : Nat) :
    (reduce_cell_possibilities b x y v).solved_cells.count (x', y', w) =
      b.solved_cells.count (x', y', w) +
        (if ((x', y', w) : Nat × Nat × Nat) =
              (x, y, Cell.resolve ((getCell b.cells x y).erase v)) ∧
            (getCell b.cells x y).card ≠ 1 ∧
            ((getCell b.cells x y).erase v).card = 1
         then 1 else 0) := by
  rw [reduce_cell_queue]
  by_cases hcond : (getCell b.cells x y).card ≠ 1 ∧
      ((getCell b.cells x y).erase v).card = 1
  · rw [if_pos hcond, count_append_singleton]
    congr 1
    by_cases he : ((x', y', w) : Nat × Nat × Nat) =
        (x, y, Cell.resolve ((getCell b.cells x y).erase v))
    · rw [if_pos he, if_pos ⟨he, hcond⟩]
    · rw [if_neg he, if_neg (fun hh => he hh.1)]
  · rw [if_neg hcond, if_neg (fun hh => hcond hh.2)]
    omega

/-- The cell at an unsolved visited coordinate after a reduction call is the
erase of its old set (regardless of grid bounds). -/
theorem reduce_cell_getCell_unsolved (b : Board) (x y v : Nat)
    (hs : (getCell b.cells x y).card ≠ 1) :
    getCell (reduce_cell_possibilities b x y v).cells x y =
      (getCell b.cells x y).erase v := by
  rw [reduce_cell_getCell, if_pos ⟨rfl, rfl⟩]
  unfold targetCell
  rw [if_neg hs]

/-- Queue effect of a whole reduction pass, record by record: one record per
visited coordinate whose set collapses from size `≥ 2` to a singleton,
carrying the resolved value. -/
theorem reduceMany_queue_count (v : Nat) :
    ∀ (ps : List (Nat × Nat)) (b : Board) (x y w : Nat),
      (reduceMany b ps v).solved_cells.count (x, y, w) =
        b.solved_cells.count (x, y, w) +
          (if (x, y) ∈ ps ∧ (getCell b.cells x y).card ≠ 1 ∧
              ((getCell b.cells x y).erase v).card = 1 ∧
              w = Cell.resolve ((getCell b.cells x y).erase v)
           then 1 else 0) := by
  intro ps
  induction ps with
  | nil =>
    intro b x y w
    rw [reduceMany_nil, if_neg (fun hh => List.not_mem_nil _ hh.1)]
    omega
  | cons p rest ih =>
    intro b x y w
    rw [reduceMany_cons, ih, reduce_cell_queue_count]
    by_cases hp : ((x, y) : Nat × Nat) = p
    · subst hp
      by_cases hs : (getCell b.cells x y).card = 1
      · have hb1 : reduce_cell_possibilities b (x, y).1 (x, y).2 v = b :=
          reduce_cell_of_solved v hs
        rw [hb1]
        rw [if_neg (fun hh => hh.2.1 hs), if_neg (fun hh => hh.2.1 hs),
          if_neg (fun hh => hh.2.1 hs)]
      · have hb1cell : getCell (reduce_cell_possibilities b (x, y).1 (x, y).2 v).cells x y =
            (getCell b.cells x y).erase v :=
          reduce_cell_getCell_unsolved b x y v hs
        by_cases hc : ((getCell b.cells x y).erase v).card = 1
        · have hzero : ¬ (((x, y) : Nat × Nat) ∈ rest ∧
              (getCell (reduce_cell_possibilities b (x, y).1 (x, y).2 v).cells x y).card ≠ 1 ∧
              ((getCell (reduce_cell_possibilities b (x, y).1 (x, y).2 v).cells x y).erase v).card = 1 ∧
              w = Cell.resolve ((getCell (reduce_cell_possibilities b (x, y).1 (x, y).2 v).cells x y).erase v)) := by
            intro hh
            rw [hb1cell] at hh
            exact hh.2.1 hc
          rw [if_neg hzero]
          by_cases hw : w = Cell.resolve ((getCell b.cells x y).erase v)
          · rw [if_pos ⟨by rw [hw], hs, hc⟩,
              if_pos ⟨List.mem_cons_self _ _, hs, hc, hw⟩]
          · rw [if_neg (fun hh => hw (by
                have := hh.1
                rw [Prod.ext_iff] at this
                have := this.2
                rw [Prod.ext_iff] at this
                exact this.2)),
              if_neg (fun hh => hw hh.2.2.2)]
        · have hzero : ¬ (((x, y) : Nat × Nat) ∈ rest ∧
              (getCell (reduce_cell_possibilities b (x, y).1 (x, y).2 v).cells x y).card ≠ 1 ∧
              ((getCell (reduce_cell_possibilities b (x, y).1 (x, y).2 v).cells x y).erase v).card = 1 ∧
              w = Cell.resolve ((getCell (reduce_cell_possibilities b (x, y).1 (x, y).2 v).cells x y).erase v)) := by
            intro hh
            rw [hb1cell, Finset.erase_idem] at hh
            exact hc hh.2.2.1
          rw [if_neg hzero, if_neg (fun hh => hc hh.2.2),
            if_neg (fun hh => hc hh.2.2.1)]
    · have hfst : ∀ (r : Nat), ¬ ((x, y, w) : Nat × Nat × Nat) = (p.1, p.2, r) := by
        intro r hh
        rw [Prod.ext_iff] at hh
        apply hp
        rw [Prod.ext_iff]
        refine ⟨hh.1, ?_⟩
        have := hh.2
        rw [Prod.ext_iff] at this
        exact this.1
      have hb1cell : getCell (reduce_cell_possibilities b p.1 p.2 v).cells x y =
          getCell b.cells x y := by
        rw [reduce_cell_getCell]
        exact if_neg (fun hh => hp (by rw [Prod.ext_iff]; exact ⟨hh.1, hh.2⟩))
      rw [hb1cell, if_neg (fun hh => hfst _ hh.1)]
      have hmemiff : (((x, y) : Nat × Nat) ∈ p :: rest) ↔ ((x, y) : Nat × Nat) ∈ rest := by
        rw [List.mem_cons]
        exact ⟨fun h => h.elim (fun hh => absurd hh hp) id, Or.inr⟩
      by_cases hcond : ((x, y) : Nat × Nat) ∈ rest ∧ (getCell b.cells x y).card ≠ 1 ∧
          ((getCell b.cells x y).erase v).card = 1 ∧
          w = Cell.resolve ((getCell b.cells x y).erase v)
      · rw [if_pos hcond, if_pos ⟨hmemiff.mpr hcond.1, hcond.2⟩]
      · rw [if_neg hcond, if_neg (fun hh => hcond ⟨hmemiff.mp hh.1, hh.2⟩)]

/-- `reduce_possibilities` is the sequential reduction of the 27 visited
coordinates (9 of the column, 9 of the row, 9 of the block, duplicates
included, exactly as the Rust loops visit them). -/
theorem reduce_possibilities_eq (b : Board) (sx sy sv : Nat) :
    reduce_possibilities b sx sy sv = reduceMany b (touchList sx sy) sv := by
  unfold reduce_possibilities reduceMany touchList
  rw [List.foldl_append, List.foldl_append, List.foldl_flatten]
  simp only [List.foldl_map]

/-- The coordinates visited by a reduction pass are exactly the grid cells
sharing the row, column or block of the solved cell. -/
theorem mem_touchList {sx sy x y : Nat} (hx : sx < 9) (hy : sy < 9) :
    ((x, y) : Nat × Nat) ∈ touchList sx sy ↔ peerN sx sy x y := by
  unfold touchList peerN
  simp only [List.mem_append, List.mem_map, List.mem_range, List.mem_flatten,
    Prod.mk.injEq]
  constructor
  · rintro ((⟨x', hx', hx'', hy''⟩ | ⟨y', hy', hx'', hy''⟩) |
      ⟨sub, ⟨x', hx', rfl⟩, hmem⟩)
    · subst hx''
      subst hy''
      exact ⟨hx', hy, Or.inr (Or.inl rfl)⟩
    · subst hx''
      subst hy''
      exact ⟨hx, hy', Or.inl rfl⟩
    · simp only [List.mem_map, List.mem_range, Prod.mk.injEq] at hmem
      obtain ⟨y', hy', hx'', hy''⟩ := hmem
      subst hx''
      subst hy''
      refine ⟨by omega, by omega, Or.inr (Or.inr ⟨by omega, by omega⟩)⟩
  · rintro ⟨hx9, hy9, hcase | hcase | hcase⟩
    · exact Or.inl (Or.inr ⟨y, hy9, by omega, rfl⟩)
    · exact Or.inl (Or.inl ⟨x, hx9, rfl, by omega⟩)
    · refine Or.inr ⟨(List.range 3).map (fun y' => (x % 3 + sx / 3 * 3, y' + sy / 3 * 3)),
        ⟨x % 3, by omega, rfl⟩, ?_⟩
      simp only [List.mem_map, List.mem_range, Prod.mk.injEq]
      exact ⟨y % 3, by omega, by omega, by omega⟩

theorem solve_empty (fuel : Nat) (b : Board) (h : b.solved_cells = []) :
    solve fuel b = some b := by
  unfold solve
  rw [h]

theorem solve_cons_zero (b : Board) (s : Nat × Nat × Nat)
    (rest : List (Nat × Nat × Nat)) (h : b.solved_cells = s :: rest) :
    solve 0 b = none := by
  unfold solve
  rw [h]

theorem solve_cons (fuel : Nat) (b : Board) (s : Nat × Nat × Nat)
    (rest : List (Nat × Nat × Nat)) (h : b.solved_cells = s :: rest) :
    solve (fuel + 1) b =
      solve fuel (reduce_possibilities ⟨b.cells, rest⟩ s.1 s.2.1 s.2.2) := by
  conv_lhs => unfold solve
  rw [h]

/-- `solve` terminates whenever the fuel is at least the measure: each
iteration dequeues one record (−1) and preserves the rest of the measure. -/
theorem solve_terminates : ∀ (fuel : Nat) (b : Board), potential b ≤ fuel →
    ∃ b', solve fuel b = some b' := by
  intro fuel
  induction fuel with
  | zero =>
    intro b hb
    cases hq : b.solved_cells with
    | nil => exact ⟨b, solve_empty 0 b hq⟩
    | cons s rest =>
      exfalso
      unfold potential at hb
      rw [hq] at hb
      simp at hb
  | succ fuel ih =>
    intro b hb
    cases hq : b.solved_cells with
    | nil => exact ⟨b, solve_empty _ b hq⟩
    | cons s rest =>
      rw [solve_cons fuel b s rest hq]
      apply ih
      rw [reduce_possibilities_eq, potential_reduceMany]
      unfold potential at hb ⊢
      rw [hq] at hb
      simp only [List.length_cons] at hb
      dsimp only
      omega

/-- Over a whole run of `solve`, every cell's possibility set only
shrinks. -/
theorem solve_subset : ∀ (fuel : Nat) (b b' : Board), solve fuel b = some b' →
    ∀ x y, getCell b'.cells x y ⊆ getCell b.cells x y := by
  intro fuel
  induction fuel with
  | zero =>
    intro b b' h x y
    cases hq : b.solved_cells with
    | nil =>
      rw [solve_empty 0 b hq] at h
      injection h with h
      subst h
      exact Finset.Subset.refl _
    | cons s rest =>
      rw [solve_cons_zero b s rest hq] at h
      cases h
  | succ fuel ih =>
    intro b b' h x y
    cases hq : b.solved_cells with
    | nil =>
      rw [solve_empty _ b hq] at h
      injection h with h
      subst h
      exact Finset.Subset.refl _
    | cons s rest =>
      rw [solve_cons fuel b s rest hq] at h
      refine (ih _ _ h x y).trans ?_
      rw [reduce_possibilities_eq]
      exact reduceMany_subset _ _ _ x y

/-- Every in-grid cell keeps a nonempty possibility set through a single
reduction call. -/
theorem reduce_cell_nonempty (b : Board) (x y v x' y' : Nat)
    (h : (getCell b.cells x' y').Nonempty) :
    (getCell (reduce_cell_possibilities b x y v).cells x' y').Nonempty := by
  rw [reduce_cell_getCell]
  by_cases hxy : x' = x ∧ y' = y
  · rw [hxy.1, hxy.2] at h
    rw [if_pos hxy]
    unfold targetCell
    by_cases hs : (getCell b.cells x y).card = 1
    · rw [if_pos hs]
      exact h
    · rw [if_neg hs]
      rw [← Finset.card_pos] at h ⊢
      have hge : 2 ≤ (getCell b.cells x y).card := by omega
      have := Finset.pred_card_le_card_erase (a := v) (s := getCell b.cells x y)
      omega
  · rw [if_neg hxy]
    exact h

theorem reduceMany_nonempty (v : Nat) :
    ∀ (ps : List (Nat × Nat)) (b : Board) (x' y' : Nat),
      (getCell b.cells x' y').Nonempty →
      (getCell (reduceMany b ps v).cells x' y').Nonempty := by
  intro ps
  induction ps with
  | nil => intro b x' y' h; exact h
  | cons p rest ih =>
    intro b x' y' h
    rw [reduceMany_cons]
    exact ih _ x' y' (reduce_cell_nonempty b p.1 p.2 v x' y' h)

/-- Over a whole run of `solve`, nonempty possibility sets stay nonempty. -/
theorem solve_nonempty : ∀ (fuel : Nat) (b b' : Board), solve fuel b = some b' →
    ∀ x y, (getCell b.cells x y).Nonempty → (getCell b'.cells x y).Nonempty := by
  intro fuel
  induction fuel with
  | zero =>
    intro b b' h x y hne
    cases hq : b.solved_cells with
    | nil =>
      rw [solve_empty 0 b hq] at h
      injection h with h
      subst h
      exact hne
    | cons s rest =>
      rw [solve_cons_zero b s rest hq] at h
      cases h
  | succ fuel ih =>
    intro b b' h x y hne
    cases hq : b.solved_cells with
    | nil =>
      rw [solve_empty _ b hq] at h
      injection h with h
      subst h
      exact hne
    | cons s rest =>
      rw [solve_cons fuel b s rest hq] at h
      refine ih _ _ h x y ?_
      rw [reduce_possibilities_eq]
      exact reduceMany_nonempty _ _ _ x y hne

theorem card_cell_new (v : Nat) : (Cell.new v).card = if v = 0 then 9 else 1 := by
  unfold Cell.new
  by_cases hv : v = 0
  · rw [if_pos hv, if_pos hv]
    decide
  · rw [if_neg hv, if_neg hv]
    exact Finset.card_singleton v

theorem nonempty_cell_new (v : Nat) : (Cell.new v).Nonempty := by
  rw [← Finset.card_pos, card_cell_new]
  by_cases hv : v = 0
  · rw [if_pos hv]; omega
  · rw [if_neg hv]; omega

theorem row_potential (x : Nat) :
    ∀ (row : List Nat) (y : Nat),
      (rowSolved x y row).length +
        ((row.map Cell.new).filter (fun c => c.card != 1)).length = row.length := by
  intro row
  induction row with
  | nil => intro y; rfl
  | cons v rest ih =>
    intro y
    unfold rowSolved
    rw [List.length_append, List.map_cons, List.filter_cons]
    have hrec := ih (y + 1)
    by_cases hv : v = 0
    · have hp : ((Cell.new v).card != 1) = true := by
        rw [card_cell_new, if_pos hv]
        decide
      rw [if_pos hv, hp]
      simp only [if_true, List.length_nil, List.length_cons]
      omega
    · have hp : ((Cell.new v).card != 1) = false := by
        rw [card_cell_new, if_neg hv]
        decide
      rw [if_neg hv, hp]
      simp only [Bool.false_eq_true, if_false, List.length_cons, List.length_nil]
      omega

theorem new_potential :
    ∀ (rows : List (List Nat)) (x : Nat),
      (newSolved x rows).length +
        unsolvedCount (rows.map (fun row => row.map Cell.new)) =
        (rows.map List.length).sum := by
  intro rows
  induction rows with
  | nil => intro x; rfl
  | cons row rest ih =>
    intro x
    unfold newSolved unsolvedCount
    simp only [List.map_cons, List.sum_cons, List.length_append]
    have h1 := row_potential x row 0
    have h2 := ih (x + 1)
    unfold unsolvedCount at h2
    omega

/-- The measure of a freshly constructed 9×9 board is exactly 81. -/
theorem potential_board_new (rows : List (List Nat)) (h9 : rows.length = 9)
    (hr : ∀ row ∈ rows, row.length = 9) : potential (Board.new rows) = 81 := by
  unfold potential Board.new
  dsimp only
  have hpot := new_potential rows 0
  have hrepl : rows.map List.length = List.replicate 9 9 := by
    rw [List.eq_replicate]
    constructor
    · simp [h9]
    · intro n hn
      rw [List.mem_map] at hn
      obtain ⟨row, hrow, rfl⟩ := hn
      exact hr row hrow
  rw [hrepl] at hpot
  have : (List.replicate 9 9 : List Nat).sum = 81 := by decide
  omega

/-- Each in-grid cell of a fresh board is the `Cell::new` of its digit. -/
theorem getCell_board_new (rows : List (List Nat)) (x y : Nat)
    (hx : x < rows.length) (hy : y < (rows.getD x []).length) :
    getCell (Board.new rows).cells x y = Cell.new ((rows.getD x []).getD y 0) := by
  unfold Board.new getCell
  dsimp only
  have hget : rows.getD x [] = rows[x] := by
    rw [List.getD_eq_getElem?_getD, List.getElem?_eq_getElem hx]
    rfl
  rw [hget] at hy
  have houter : (rows.map (fun row => row.map Cell.new)).getD x [] =
      rows[x].map Cell.new := by
    rw [List.getD_eq_getElem?_getD, List.getElem?_map, List.getElem?_eq_getElem hx]
    rfl
  rw [houter, hget]
  rw [List.getD_eq_getElem?_getD, List.getElem?_map, List.getElem?_eq_getElem hy]
  rw [List.getD_eq_getElem?_getD, List.getElem?_eq_getElem hy]
  rfl

end Naive

namespace Backtracking

/-- On a completely solved grid, `find_solution` never finds a candidate:
every digit other than the cell's current one already occurs in its row, and
the search starts strictly above the current one. -/
theorem find_solution_none_of_solved (board : List Nat) (u : Nat)
    (hu : u < 81) (hs : SolvedGrid board) :
    find_solution board (u / 9) (u % 9) = none := by
  have hr : u / 9 < 9 := by omega
  have hc : u % 9 < 9 := by omega
  have hcur : get_cell board (u / 9) (u % 9) = board.getD u 0 := by
    unfold get_cell
    congr 1
    omega
  unfold find_solution
  rw [List.find?_eq_none]
  intro w hw
  rw [List.mem_range'_1, hcur] at hw
  have hw1 : 1 ≤ w := by omega
  have hw9 : w ≤ 9 := by omega
  have hcnt := hs.2.1 (u / 9) hr w (by omega) hw1
  have hpos : 0 < ((rowIdxs (u / 9)).map (fun i => board.getD i 0)).count w := by
    omega
  rw [List.count_pos_iff, List.mem_map] at hpos
  obtain ⟨i, hi, hiw⟩ := hpos
  have hi81 := ((mem_rowIdxs hr).mp hi).1
  have hidiv := ((mem_rowIdxs hr).mp hi).2
  have hiu : i ≠ u := by
    intro hh
    subst hh
    omega
  intro hvalid
  have hchar := (is_valid_cell_iff board (u / 9) (u % 9) w hr hc).mp hvalid
  have hu9 : u / 9 * 9 + u % 9 = u := by omega
  rw [hu9] at hchar
  exact hchar i hi81 hiu (Or.inl (by omega)) hiw

end Backtracking

namespace Claims

open Backtracking

set_option maxRecDepth 10000 in
/-- Counterexample for C3: `demoSolvedBoard` is an already-solved grid
state of the backtracking engine (unsolved-cell list `[80]`, all cells
filled and valid), yet re-running `solve()` on it does not leave the state
unchanged: `find_solution` looks only for candidates strictly greater than
the stored digit, finds none, clears the cell and retreats the cursor from
`0` — a crash, not a no-op. -/
theorem C3_counterexample :
    SolvedGrid demoSolvedBoard ∧ solveLoop [80] 3 demoSolvedBoard 0 = .panic := by
  constructor
  · decide
  · decide

/-- C3 amended: re-running `solve()` is a no-op for the propagation engine
(its queue is empty after any completed run, and `solve` on an empty queue
returns the state unchanged), and for the backtracking engine exactly when
the unsolved-cell list is empty; when at least one cell was originally
unsolved, re-running `solve()` on a solved grid clears that cell and
crashes by cursor underflow instead of leaving the state unchanged. -/
theorem C3_amended :
    (∀ (fuel : Nat) (nb : Naive.Board), nb.solved_cells = [] →
        Naive.solve fuel nb = some nb) ∧
    (∀ (board : List Nat) (fuel : Nat), solveLoop [] fuel board 0 = .ok board) ∧
    (∀ (u : Nat) (rest : List Nat) (board : List Nat) (fuel : Nat),
        u < 81 → SolvedGrid board →
        solveLoop (u :: rest) (fuel + 1) board 0 = .panic) := by
  refine ⟨fun fuel nb h => Naive.solve_empty fuel nb h,
    fun board fuel => solveLoop_exit fuel board (by simp), ?_⟩
  intro u rest board fuel hu hsolved
  have hlen : (0 : Nat) < (u :: rest).length := by simp
  exact solveLoop_succ_none_zero hlen
    (find_solution_none_of_solved board u hu hsolved)

set_option maxRecDepth 10000 in
/-- Witness for C3 amended at concrete states. -/
theorem C3_amended_witness :
    Naive.solve 5 ⟨[], []⟩ = some ⟨[], []⟩ ∧
    solveLoop [] 5 demoSolvedBoard 0 = .ok demoSolvedBoard ∧
    solveLoop [80] 4 demoSolvedBoard 0 = .panic :=
  ⟨C3_amended.1 5 ⟨[], []⟩ rfl, C3_amended.2.1 demoSolvedBoard 5,
   C3_amended.2.2 80 [] demoSolvedBoard 3 (by decide) (by decide)⟩

/-- C4: processing one dequeued solved record `(sx, sy, sv)` removes `sv`
from the possibility set of every not-yet-solved cell among the cells
sharing the row, column or block of `(sx, sy)` (the solved cells among
them, including `(sx, sy)` itself, are untouched), and appends to the queue
exactly one record — carrying the resolved value — for precisely those
peers whose set collapses to a singleton; no cell is enqueued twice even
though row∩block and column∩block cells are visited twice.  There are
exactly 20 such peers besides the cell itself. -/
theorem C4_reduce_possibilities_effect (b : Naive.Board) (sx sy sv : Nat)
    (hx : sx < 9) (hy : sy < 9)
    (hsolved : (Naive.getCell b.cells sx sy).card = 1) :
    (∀ x y, Naive.getCell (Naive.reduce_possibilities b sx sy sv).cells x y =
        if Naive.peerN sx sy x y ∧ (Naive.getCell b.cells x y).card ≠ 1
        then (Naive.getCell b.cells x y).erase sv
        else Naive.getCell b.cells x y) ∧
    (∃ l, (Naive.reduce_possibilities b sx sy sv).solved_cells =
        b.solved_cells ++ l ∧
      ∀ x y w, l.count (x, y, w) =
        if Naive.peerN sx sy x y ∧ (Naive.getCell b.cells x y).card ≠ 1 ∧
            ((Naive.getCell b.cells x y).erase sv).card = 1 ∧
            w = Naive.Cell.resolve ((Naive.getCell b.cells x y).erase sv)
        then 1 else 0) ∧
    ((List.range 81).filter (fun i =>
        decide (Naive.peerN sx sy (i / 9) (i % 9)) &&
          !(i / 9 == sx && i % 9 == sy))).length = 20 := by
  refine ⟨?_, ?_, ?_⟩
  · intro x y
    rw [Naive.reduce_possibilities_eq, Naive.reduceMany_getCell]
    by_cases hmem : ((x, y) : Nat × Nat) ∈ Naive.touchList sx sy
    · rw [if_pos hmem]
      have hpeer := (Naive.mem_touchList hx hy).mp hmem
      unfold Naive.targetCell
      by_cases hcard : (Naive.getCell b.cells x y).card = 1
      · rw [if_pos hcard, if_neg (fun hh => hh.2 hcard)]
      · rw [if_neg hcard, if_pos ⟨hpeer, hcard⟩]
    · rw [if_neg hmem,
        if_neg (fun hh => hmem ((Naive.mem_touchList hx hy).mpr hh.1))]
  · obtain ⟨l, hl⟩ := Naive.reduceMany_queue_prefix sv (Naive.touchList sx sy) b
    refine ⟨l, by rw [Naive.reduce_possibilities_eq, hl], ?_⟩
    intro x y w
    have hcnt := Naive.reduceMany_queue_count sv (Naive.touchList sx sy) b x y w
    rw [hl, List.count_append] at hcnt
    have hiff : (((x, y) : Nat × Nat) ∈ Naive.touchList sx sy ∧
        (Naive.getCell b.cells x y).card ≠ 1 ∧
        ((Naive.getCell b.cells x y).erase sv).card = 1 ∧
        w = Naive.Cell.resolve ((Naive.getCell b.cells x y).erase sv)) ↔
        (Naive.peerN sx sy x y ∧ (Naive.getCell b.cells x y).card ≠ 1 ∧
        ((Naive.getCell b.cells x y).erase sv).card = 1 ∧
        w = Naive.Cell.resolve ((Naive.getCell b.cells x y).erase sv)) := by
      constructor
      · intro hh
        exact ⟨(Naive.mem_touchList hx hy).mp hh.1, hh.2⟩
      · intro hh
        exact ⟨(Naive.mem_touchList hx hy).mpr hh.1, hh.2⟩
    rw [if_congr hiff rfl rfl] at hcnt
    omega
  · have h20 : ∀ a, a < 9 → ∀ c, c < 9 →
        ((List.range 81).filter (fun i =>
          decide (Naive.peerN a c (i / 9) (i % 9)) &&
            !(i / 9 == a && i % 9 == c))).length = 20 := by decide
    exact h20 sx hx sy hy

/-- Witness for C4: the one-clue board, processing the record `(0, 0, 5)`. -/
theorem C4_witness :
    (∀ x y, Naive.getCell (Naive.reduce_possibilities
          (Naive.Board.new Naive.oneClueConfig) 0 0 5).cells x y =
        if Naive.peerN 0 0 x y ∧
            (Naive.getCell (Naive.Board.new Naive.oneClueConfig).cells x y).card ≠ 1
        then (Naive.getCell (Naive.Board.new Naive.oneClueConfig).cells x y).erase 5
        else Naive.getCell (Naive.Board.new Naive.oneClueConfig).cells x y) ∧
    (∃ l, (Naive.reduce_possibilities
          (Naive.Board.new Naive.oneClueConfig) 0 0 5).solved_cells =
        (Naive.Board.new Naive.oneClueConfig).solved_cells ++ l ∧
      ∀ x y w, l.count (x, y, w) =
        if Naive.peerN 0 0 x y ∧
            (Naive.getCell (Naive.Board.new Naive.oneClueConfig).cells x y).card ≠ 1 ∧
            ((Naive.getCell (Naive.Board.new Naive.oneClueConfig).cells x y).erase 5).card = 1 ∧
            w = Naive.Cell.resolve
              ((Naive.getCell (Naive.Board.new Naive.oneClueConfig).cells x y).erase 5)
        then 1 else 0) ∧
    ((List.range 81).filter (fun i =>
        decide (Naive.peerN 0 0 (i / 9) (i % 9)) &&
          !(i / 9 == 0 && i % 9 == 0))).length = 20 :=
  C4_reduce_possibilities_effect (Naive.Board.new Naive.oneClueConfig) 0 0 5
    (by decide) (by decide) (by decide)

/-- C5: possibility sets only ever shrink — every single
`reduce_cell_possibilities` call yields a subset of the previous set at
every coordinate (so no candidate is ever re-added), and hence so does a
whole `solve` run. -/
theorem C5_domains_shrink :
    (∀ (b : Naive.Board) (x y v x' y' : Nat),
        Naive.getCell (Naive.reduce_cell_possibilities b x y v).cells x' y' ⊆
          Naive.getCell b.cells x' y') ∧
    (∀ (fuel : Nat) (b b' : Naive.Board), Naive.solve fuel b = some b' →
        ∀ x y, Naive.getCell b'.cells x y ⊆ Naive.getCell b.cells x y) :=
  ⟨Naive.reduce_cell_subset, Naive.solve_subset⟩

/-- Witness for C5 on a concrete board and run. -/
theorem C5_witness :
    Naive.getCell (Naive.reduce_cell_possibilities
        (Naive.Board.new Naive.oneClueConfig) 0 1 5).cells 0 1 ⊆
      Naive.getCell (Naive.Board.new Naive.oneClueConfig).cells 0 1 ∧
    ∀ x y, Naive.getCell (Naive.Board.new Naive.zeroConfig).cells x y ⊆
      Naive.getCell (Naive.Board.new Naive.zeroConfig).cells x y :=
  ⟨C5_domains_shrink.1 (Naive.Board.new Naive.oneClueConfig) 0 1 5 0 1,
   C5_domains_shrink.2 0 (Naive.Board.new Naive.zeroConfig)
     (Naive.Board.new Naive.zeroConfig) (by rfl)⟩

/-- C8: the propagation engine's `solve` terminates on every 9×9 input
within 81 dequeues (the queue length plus the count of unsolved cells
starts at exactly 81 and drops by one per iteration), and the final state
has every cell either solved (singleton) or still holding at least two
candidates. -/
theorem C8_solve_terminates (rows : List (List Nat)) (h9 : rows.length = 9)
    (hr : ∀ row ∈ rows, row.length = 9) :
    ∃ b', Naive.solve 81 (Naive.Board.new rows) = some b' ∧
      ∀ x y, x < 9 → y < 9 →
        (Naive.getCell b'.cells x y).card = 1 ∨
          2 ≤ (Naive.getCell b'.cells x y).card := by
  obtain ⟨b', hb'⟩ := Naive.solve_terminates 81 (Naive.Board.new rows)
    (by rw [Naive.potential_board_new rows h9 hr])
  refine ⟨b', hb', ?_⟩
  intro x y hx hy
  have hx' : x < rows.length := by omega
  have hy' : y < (rows.getD x []).length := by
    have hmem : rows.getD x [] ∈ rows := by
      rw [List.getD_eq_getElem _ _ hx']
      exact List.getElem_mem hx'
    rw [hr _ hmem]
    omega
  have hne0 : (Naive.getCell (Naive.Board.new rows).cells x y).Nonempty := by
    rw [Naive.getCell_board_new rows x y hx' hy']
    exact Naive.nonempty_cell_new _
  have hne := Naive.solve_nonempty 81 _ _ hb' x y hne0
  rw [← Finset.card_pos] at hne
  omega

/-- Witness for C8 on the all-empty configuration. -/
theorem C8_witness :
    ∃ b', Naive.solve 81 (Naive.Board.new Naive.zeroConfig) = some b' ∧
      ∀ x y, x < 9 → y < 9 →
        (Naive.getCell b'.cells x y).card = 1 ∨
          2 ≤ (Naive.getCell b'.cells x y).card :=
  C8_solve_terminates Naive.zeroConfig (by decide) (by decide)

/-- Counterexample for C9: neither constructor rejects malformed input.
`Board::new` on a configuration with two `5` clues in row 0 silently
builds a solver (both cells solved singletons, both enqueued), and on an
out-of-range digit `17` builds the singleton domain `{17}`;
`Sudoku::from_iter` on the same duplicate clues returns a solver whose
board contains both conflicting clues. -/
theorem C9_counterexample :
    (Naive.Board.new Naive.dupConfig).solved_cells = [(0, 0, 5), (0, 1, 5)] ∧
    Naive.getCell (Naive.Board.new Naive.dupConfig).cells 0 0 = {5} ∧
    Naive.getCell (Naive.Board.new Naive.dupConfig).cells 0 1 = {5} ∧
    Naive.getCell (Naive.Board.new Naive.outOfRangeConfig).cells 0 0 = {17} ∧
    from_iter c9Clues = some ⟨fromIterBoard c9Clues, fromIterUnsolved c9Clues⟩ ∧
    (fromIterBoard c9Clues).getD 0 0 = 5 ∧ (fromIterBoard c9Clues).getD 1 0 = 5 := by
  refine ⟨?_, ?_, ?_, ?_, ?_, ?_, ?_⟩ <;> decide

/-- C9 amended: construction never validates clue values.
`Sudoku::from_iter` succeeds exactly when every clue position is in range
(an out-of-range position is an index-out-of-bounds panic, not a
descriptive failure), regardless of clue digits or duplicate conflicts;
`Board::new` unconditionally builds the 9×9 domain grid from any input. -/
theorem C9_amended :
    (∀ clues : List (Nat × Nat), (from_iter clues).isSome =
        clues.all (fun p => p.1 < 81)) ∧
    (∀ rows : List (List Nat),
        (Naive.Board.new rows).cells = rows.map (fun row => row.map Naive.Cell.new) ∧
        (Naive.Board.new rows).cells.length = rows.length) := by
  constructor
  · intro clues
    unfold from_iter
    by_cases h : clues.all (fun p => p.1 < AREA) = true
    · rw [if_pos h]
      rw [show clues.all (fun p => p.1 < 81) = clues.all (fun p => p.1 < AREA) from rfl, h]
      rfl
    · rw [if_neg h]
      rw [show clues.all (fun p => p.1 < 81) = clues.all (fun p => p.1 < AREA) from rfl]
      rw [Bool.eq_false_iff.mpr h]
      rfl
  · intro rows
    exact ⟨rfl, by simp [Naive.Board.new]⟩

/-- C10: no possibility set is ever empty.  Every cell of a fresh board is
nonempty (`{1..9}` or a singleton), a `solve` run preserves nonemptiness
(the `is_solved` guard keeps singletons untouched, and erasing from a set
of size `≥ 2` leaves `≥ 1`), and `resolve` on a solved cell returns
exactly its unique candidate. -/
theorem C10_no_empty_domain :
    (∀ (rows : List (List Nat)) (x y : Nat), x < rows.length →
        y < (rows.getD x []).length →
        (Naive.getCell (Naive.Board.new rows).cells x y).Nonempty) ∧
    (∀ (fuel : Nat) (b b' : Naive.Board), Naive.solve fuel b = some b' →
        ∀ x y, (Naive.getCell b.cells x y).Nonempty →
          (Naive.getCell b'.cells x y).Nonempty) ∧
    (∀ s : Finset Nat, s.card = 1 → s = {Naive.Cell.resolve s}) := by
  refine ⟨?_, Naive.solve_nonempty, Naive.resolve_singleton⟩
  intro rows x y hx hy
  rw [Naive.getCell_board_new rows x y hx hy]
  exact Naive.nonempty_cell_new _

/-- Witness for C10 at concrete inputs. -/
theorem C10_witness :
    (Naive.getCell (Naive.Board.new Naive.oneClueConfig).cells 0 0).Nonempty ∧
    ((Naive.getCell (Naive.Board.new Naive.zeroConfig).cells 1 1).Nonempty →
      (Naive.getCell (Naive.Board.new Naive.zeroConfig).cells 1 1).Nonempty) ∧
    ({6} : Finset Nat) = {Naive.Cell.resolve ({6} : Finset Nat)} :=
  ⟨C10_no_empty_domain.1 Naive.oneClueConfig 0 0 (by decide) (by decide),
   C10_no_empty_domain.2.1 0 (Naive.Board.new Naive.zeroConfig)
     (Naive.Board.new Naive.zeroConfig) (by rfl) 1 1,
   C10_no_empty_domain.2.2 {6} (by decide)⟩

end Claims

